import Mathlib

/-!
Shallow embedding of the authored core of `llm_inference.py`: the output
reshaper `reshape_model_outputs` (lines 272-291), the output trimmer
`postprocess_model_outputs` (lines 293-312) and the command-line default
configuration `InferenceArguments` (lines 33-191).

Modelling conventions:
* Python strings are their character lists (`PyStr := List Char`);
* Python exceptions are an explicit `PyError` value returned through
  `Except` (the `assert` failures of the reshaper are `shapeError`, which
  is what the error taxonomy of the spec calls them);
* the one warning-level log call of the trimmer (separator not found) is
  counted and returned next to the result;
* Python `int(n/b)` on the nonnegative ints that reach the reshaper is
  natural-number division;
* floats that only ever hold exact constant defaults (`temperature`,
  `top_p`, ...) are rationals.

All recursive workers are structurally recursive (a skip counter replaces
the `drop` inside the recursion), so every definition evaluates by kernel
reduction on concrete inputs.
-/

namespace LLMInf

/-- Python strings, modelled as their character lists. -/
abbrev PyStr := List Char

/-- Conversion from Lean string literals to embedded Python strings. -/
def pys (s : String) : PyStr := s.data

/-- Python exceptions reachable in the embedded code.  `shapeError` is the
`AssertionError` raised by the two `assert` statements of
`reshape_model_outputs`; the error taxonomy of the spec names it ShapeError.
`valueError` is raised by `range(0, n, 0)` (zero step) and by
`str.split` with an empty separator; `zeroDivisionError` by division by a
zero batch size; `indexError` by `inputs[i]` past the end of `inputs`. -/
inductive PyError where
  | valueError
  | zeroDivisionError
  | shapeError
  | indexError
deriving DecidableEq

/-! ## Reshaper: `reshape_model_outputs` -/

/-- Worker for the list comprehension
`[outputs[i:i+k] for i in range(0, num_return_sequences, k)]`
(line 286).  The `Nat` argument counts elements still to be skipped
because they belong to the chunk just emitted; recursion is structural in
the list. -/
def chunkGo (k : Nat) : List String → Nat → List (List String)
  | [], _ => []
  | _ :: rest, n + 1 => chunkGo k rest n
  | c :: rest, 0 => ((c :: rest).take k) :: chunkGo k rest (k - 1)

/-- The chunking `[outputs[i:i+k] for i in range(0, len(outputs), k)]`
of line 286 (meaningful for `k ≠ 0`; `k = 0` raises before this point). -/
def chunkList (k : Nat) (l : List String) : List (List String) :=
  chunkGo k l 0

theorem chunkGo_skip (k : Nat) : ∀ (l : List String) (n : Nat),
    chunkGo k l n = chunkGo k (l.drop n) 0 := by
  intro l
  induction l with
  | nil => intro n; cases n <;> rfl
  | cons c rest ih =>
    intro n
    cases n with
    | zero => rfl
    | succ m => rw [List.drop_succ_cons]; exact ih m

@[simp] theorem chunkList_nil (k : Nat) : chunkList k [] = [] := rfl

theorem chunkList_cons (k : Nat) (hk : k ≠ 0) (c : String) (rest : List String) :
    chunkList k (c :: rest)
      = ((c :: rest).take k) :: chunkList k ((c :: rest).drop k) := by
  show ((c :: rest).take k) :: chunkGo k rest (k - 1)
      = ((c :: rest).take k) :: chunkGo k ((c :: rest).drop k) 0
  rw [chunkGo_skip]
  obtain ⟨k, rfl⟩ := Nat.exists_eq_succ_of_ne_zero hk
  rw [List.drop_succ_cons]
  rfl

/-- Shallow embedding of `LLM.reshape_model_outputs` (lines 272-291).
`int(num_return_sequences/input_batch_size)` is natural division;
`range(0, n, 0)` raises `ValueError` whenever the step
`return_seqs_per_input` is zero, before either `assert` is reached; the
two `assert` statements raise `AssertionError` (ShapeError in the words of the spec).
The info-level log for `return_seqs_per_input > 1` has no observable
effect on the result and is not modelled. -/
def reshape_model_outputs (outputs : List String) (input_batch_size : Nat) :
    Except PyError (List (List String)) :=
  let num_return_sequences := outputs.length
  if input_batch_size = 0 then
    .error .zeroDivisionError
  else
    let return_seqs_per_input := num_return_sequences / input_batch_size
    if return_seqs_per_input = 0 then
      .error .valueError
    else
      let grouped := chunkList return_seqs_per_input outputs
      if grouped.length = input_batch_size then
        if grouped.headI.length = return_seqs_per_input then
          .ok grouped
        else .error .shapeError
      else .error .shapeError

/-! ## String primitives of the trimmer -/

/-- Whitespace stripped by Python `str.strip()` (the ASCII part, which is
all that the data of this code can contain). -/
def pyWhitespace (c : Char) : Bool :=
  c = ' ' || c = '\t' || c = '\n' || c = '\r' || c = '\x0b' || c = '\x0c'

/-- Python `str.strip()`: drop leading and trailing whitespace. -/
def strip (s : PyStr) : PyStr :=
  ((s.dropWhile pyWhitespace).reverse.dropWhile pyWhitespace).reverse

/-- Worker for Python `str.replace(pat, ...)` with empty replacement: scan left to right, delete
each non-overlapping occurrence of `pat`.  The `Nat` argument counts
characters still to be skipped because they belong to the occurrence just
deleted; recursion is structural in the string. -/
def removeAllGo (pat : PyStr) : PyStr → Nat → PyStr
  | [], _ => []
  | _ :: rest, n + 1 => removeAllGo pat rest n
  | c :: rest, 0 =>
    if pat ≠ [] ∧ pat.isPrefixOf (c :: rest) then
      removeAllGo pat rest (pat.length - 1)
    else
      c :: removeAllGo pat rest 0

/-- Python `out_seq.replace(inputs[i], ...)` with empty replacement (line 303): delete every
non-overlapping occurrence of `pat`, scanning left to right.  For
`pat = ""` the Python replace with an empty replacement returns the string
unchanged, as does this definition. -/
def removeAll (pat s : PyStr) : PyStr :=
  removeAllGo pat s 0

/-- Worker for Python `str.split(sep)` with the same skip-counter device. -/
def pySplitGo (sep : PyStr) : PyStr → Nat → List PyStr
  | [], _ => [[]]
  | _ :: rest, n + 1 => pySplitGo sep rest n
  | c :: rest, 0 =>
    if sep ≠ [] ∧ sep.isPrefixOf (c :: rest) then
      [] :: pySplitGo sep rest (sep.length - 1)
    else
      match pySplitGo sep rest 0 with
      | [] => [[c]]
      | seg :: segs => (c :: seg) :: segs

/-- Python `out_seq.split(example_separator)` (line 304) for a non-empty
separator: split on non-overlapping occurrences, keeping empty segments.
(Python raises `ValueError` on an empty separator; that check lives in
`processCandidate`, which guards this call.) -/
def pySplitList (sep s : PyStr) : List PyStr :=
  pySplitGo sep s 0

/-! ## Trimmer: `postprocess_model_outputs` -/

/-- Body of the inner loop of `postprocess_model_outputs`
(lines 303-311) for one candidate string: remove the prompt, strip,
split on the separator (raising `ValueError` if it is empty, as
`str.split` does), warn when the split yields a single segment, and keep
the stripped first segment.  The second component counts the
warning-level log entries emitted (0 or 1). -/
def processCandidate (inp sep out_seq : PyStr) : Except PyError (PyStr × Nat) :=
  let t := strip (removeAll inp out_seq)
  if sep = [] then
    .error .valueError
  else
    let segs := pySplitList sep t
    .ok (strip segs.headI, if segs.length = 1 then 1 else 0)

/-- The inner `for out_seq in outputs[i]` loop of
`postprocess_model_outputs`, accumulating results in order and summing
warning counts. -/
def processGroup (inp sep : PyStr) : List PyStr → Except PyError (List PyStr × Nat)
  | [] => .ok ([], 0)
  | s :: rest =>
    match processCandidate inp sep s with
    | .error e => .error e
    | .ok (r, w) =>
      match processGroup inp sep rest with
      | .error e => .error e
      | .ok (rs, ws) => .ok (r :: rs, w + ws)

/-- The outer `for i in range(len(trimmed_outputs))` loop.  When `inputs`
is exhausted but a non-empty group remains, `inputs[i]` raises
`IndexError` (an empty group never touches `inputs[i]`). -/
def postprocessGo (sep : PyStr) : List PyStr → List (List PyStr) →
    Except PyError (List (List PyStr) × Nat)
  | _, [] => .ok ([], 0)
  | inp :: inps, g :: gs =>
    match processGroup inp sep g with
    | .error e => .error e
    | .ok (rs, w) =>
      match postprocessGo sep inps gs with
      | .error e => .error e
      | .ok (rest, ws) => .ok (rs :: rest, w + ws)
  | [], g :: gs =>
    if g = [] then
      match postprocessGo sep [] gs with
      | .error e => .error e
      | .ok (rest, ws) => .ok (([] : List PyStr) :: rest, ws)
    else .error .indexError

/-- Shallow embedding of `LLM.postprocess_model_outputs` (lines 293-312).
`ref_delimiter` is accepted and ignored, exactly as in the source.  The
result pairs the trimmed groups with the number of warning log entries
emitted. -/
def postprocess_model_outputs (inputs : List PyStr) (outputs : List (List PyStr))
    (example_separator : PyStr) (ref_delimiter : Option PyStr) :
    Except PyError (List (List PyStr) × Nat) :=
  postprocessGo example_separator inputs outputs

/-- The value `trimmed_outputs[i]` gets appended per candidate (the pure
part of lines 303-311): strip the prompt-stripped candidate, split, keep
the stripped first segment. -/
def candidateResult (inp sep s : PyStr) : PyStr :=
  strip ((pySplitList sep (strip (removeAll inp s))).headI)

/-- Number of warnings one candidate emits (1 iff its split has a single
segment). -/
def candidateWarn (inp sep s : PyStr) : Nat :=
  if (pySplitList sep (strip (removeAll inp s))).length = 1 then 1 else 0

/-- Modelled from the words of claim C2 only, NOT from the source: remove
just the first literal occurrence of `pat`, leaving any later occurrences
intact.  Used to exhibit that the source (`str.replace`, which removes
every occurrence) disagrees with this reading. -/
def removeFirst (pat : PyStr) : PyStr → PyStr
  | [] => []
  | c :: rest =>
    if pat ≠ [] ∧ pat.isPrefixOf (c :: rest) then
      (c :: rest).drop pat.length
    else
      c :: removeFirst pat rest

/-! ## Command-line configuration: `InferenceArguments` -/

/-- The `InferenceArguments` dataclass (lines 33-191), field for field.
Python `str = None` fields are `Option String`, floats holding exact
constants are rationals. -/
structure InferenceArguments where
  model_name_or_path : String
  output_dir : Option String
  output_file : Option String
  input_file : Option String
  seed : Int
  use_cuda : Bool
  batch_size : Int
  min_length : Option Int
  max_length : Int
  max_new_tokens : Int
  length_penalty : Rat
  no_early_stop : Bool
  num_return_sequences : Int
  num_beams : Int
  do_sample : Bool
  temperature : Rat
  top_k : Int
  top_p : Rat
  verbose : Bool
  data_seed : Int
  debug : Bool
  prompt_prefix : Option String
  n_refs : Int
  few_shot_n : Int
  example_separator : String
  ref_delimiter : String
  max_memory : Rat
  examples : Option String

/-- The dataclass defaults of `InferenceArguments`: every field except the
mandatory `model_name_or_path` takes its `field(default=...)` value. -/
def inferenceArgumentsDefault (model_name_or_path : String) : InferenceArguments where
  model_name_or_path := model_name_or_path
  output_dir := none
  output_file := none
  input_file := none
  seed := 42
  use_cuda := true
  batch_size := 1
  min_length := none
  max_length := 64
  max_new_tokens := 100
  length_penalty := 1
  no_early_stop := false
  num_return_sequences := 1
  num_beams := 4
  do_sample := false
  temperature := 1
  top_k := 0
  top_p := 0
  verbose := false
  data_seed := 42
  debug := false
  prompt_prefix := none
  n_refs := 1
  few_shot_n := 0
  example_separator := "\n\n"
  ref_delimiter := "\t"
  max_memory := 1
  examples := none

/-! ## Prefix/infix bridges -/

theorem isPrefixOf_iff : ∀ (p s : PyStr), p.isPrefixOf s = true ↔ p <+: s := by
  intro p
  induction p with
  | nil => intro s; simp [List.isPrefixOf]
  | cons a as ih =>
    intro s
    cases s with
    | nil => simp [List.isPrefixOf]
    | cons b bs =>
      simp only [List.isPrefixOf, Bool.and_eq_true, beq_iff_eq, ih bs]
      constructor
      · rintro ⟨rfl, t, rfl⟩
        exact ⟨t, rfl⟩
      · rintro ⟨t, ht⟩
        rw [List.cons_append] at ht
        obtain ⟨h1, h2⟩ := List.cons.inj ht
        exact ⟨h1, t, h2⟩

theorem isInfix_cons_of (a : Char) {p l : PyStr} (h : p <:+: l) : p <:+: a :: l := by
  obtain ⟨s, t, rfl⟩ := h
  exact ⟨a :: s, t, rfl⟩

theorem isInfix_cons_iff {p l : PyStr} {a : Char} :
    p <:+: a :: l ↔ p <+: a :: l ∨ p <:+: l := by
  constructor
  · rintro ⟨s, t, h⟩
    cases s with
    | nil => exact Or.inl ⟨t, h⟩
    | cons b s =>
      rw [List.cons_append, List.cons_append] at h
      obtain ⟨-, h2⟩ := List.cons.inj h
      exact Or.inr ⟨s, t, h2⟩
  · rintro (⟨t, h⟩ | h)
    · exact ⟨[], t, h⟩
    · exact isInfix_cons_of a h

theorem not_isInfix_nil {p : PyStr} (hp : p ≠ []) : ¬ p <:+: ([] : PyStr) := by
  rintro ⟨s, t, h⟩
  rw [List.append_assoc, List.append_eq_nil] at h
  rw [List.append_eq_nil] at h
  exact hp h.2.1

theorem cons_isPrefix_cons {a b : Char} {l₁ l₂ : PyStr} (hab : a = b)
    (h : l₁ <+: l₂) : a :: l₁ <+: b :: l₂ := by
  obtain ⟨t, rfl⟩ := h
  exact ⟨t, by rw [hab, List.cons_append]⟩

/-! ## `removeAll` lemmas -/

theorem removeAllGo_skip (pat : PyStr) : ∀ (s : PyStr) (n : Nat),
    removeAllGo pat s n = removeAllGo pat (s.drop n) 0 := by
  intro s
  induction s with
  | nil => intro n; cases n <;> rfl
  | cons c rest ih =>
    intro n
    cases n with
    | zero => rfl
    | succ m => rw [List.drop_succ_cons]; exact ih m

@[simp] theorem removeAll_nil (pat : PyStr) : removeAll pat [] = [] := rfl

theorem removeAll_cons (pat : PyStr) (c : Char) (rest : PyStr) :
    removeAll pat (c :: rest)
      = if pat ≠ [] ∧ pat.isPrefixOf (c :: rest) then
          removeAll pat ((c :: rest).drop pat.length)
        else c :: removeAll pat rest := by
  show (if pat ≠ [] ∧ pat.isPrefixOf (c :: rest) then
      removeAllGo pat rest (pat.length - 1) else c :: removeAllGo pat rest 0) = _
  split
  case isTrue h =>
    rw [removeAllGo_skip]
    obtain ⟨m, hm⟩ := Nat.exists_eq_succ_of_ne_zero
      (fun hlen => h.1 (List.eq_nil_of_length_eq_zero hlen))
    rw [hm, List.drop_succ_cons]
    rfl
  case isFalse h => rfl

theorem removeAll_of_not_isInfix (pat : PyStr) :
    ∀ s : PyStr, ¬ pat <:+: s → removeAll pat s = s := by
  intro s
  induction s with
  | nil => intro _; rfl
  | cons c rest ih =>
    intro hni
    rw [removeAll_cons]
    rw [if_neg]
    · rw [ih (fun h => hni (isInfix_cons_of c h))]
    · rintro ⟨-, hpre⟩
      exact hni ((isPrefixOf_iff pat (c :: rest)).mp hpre).isInfix

/-! ## `pySplitList` lemmas -/

theorem pySplitGo_skip (sep : PyStr) : ∀ (s : PyStr) (n : Nat),
    pySplitGo sep s n = pySplitGo sep (s.drop n) 0 := by
  intro s
  induction s with
  | nil => intro n; cases n <;> rfl
  | cons c rest ih =>
    intro n
    cases n with
    | zero => rfl
    | succ m => rw [List.drop_succ_cons]; exact ih m

@[simp] theorem pySplit_nil (sep : PyStr) : pySplitList sep [] = [[]] := rfl

theorem pySplit_ne_nil (sep : PyStr) : ∀ s : PyStr, pySplitList sep s ≠ [] := by
  intro s
  induction s with
  | nil => exact fun h => List.noConfusion h
  | cons c rest ih =>
    show (if sep ≠ [] ∧ sep.isPrefixOf (c :: rest) then
        [] :: pySplitGo sep rest (sep.length - 1)
      else match pySplitGo sep rest 0 with
        | [] => [[c]]
        | seg :: segs => (c :: seg) :: segs) ≠ []
    split
    · exact fun h => List.noConfusion h
    · split
      · exact fun h => List.noConfusion h
      · exact fun h => List.noConfusion h

theorem pySplit_cons_pos (sep : PyStr) (c : Char) (rest : PyStr)
    (hsep : sep ≠ []) (hpre : sep.isPrefixOf (c :: rest)) :
    pySplitList sep (c :: rest)
      = [] :: pySplitList sep ((c :: rest).drop sep.length) := by
  show (if sep ≠ [] ∧ sep.isPrefixOf (c :: rest) then
      [] :: pySplitGo sep rest (sep.length - 1)
    else match pySplitGo sep rest 0 with
      | [] => [[c]]
      | seg :: segs => (c :: seg) :: segs) = _
  rw [if_pos ⟨hsep, hpre⟩, pySplitGo_skip]
  obtain ⟨m, hm⟩ := Nat.exists_eq_succ_of_ne_zero
    (fun hlen => hsep (List.eq_nil_of_length_eq_zero hlen))
  rw [hm, List.drop_succ_cons]
  rfl

theorem pySplit_cons_neg (sep : PyStr) (c : Char) (rest : PyStr)
    (h : ¬ (sep ≠ [] ∧ sep.isPrefixOf (c :: rest))) :
    pySplitList sep (c :: rest)
      = (c :: (pySplitList sep rest).headI) :: (pySplitList sep rest).tail := by
  have hstep : pySplitList sep (c :: rest)
      = match pySplitGo sep rest 0 with
        | [] => [[c]]
        | seg :: segs => (c :: seg) :: segs := by
    show (if sep ≠ [] ∧ sep.isPrefixOf (c :: rest) then
        [] :: pySplitGo sep rest (sep.length - 1)
      else match pySplitGo sep rest 0 with
        | [] => [[c]]
        | seg :: segs => (c :: seg) :: segs) = _
    rw [if_neg h]
  rw [hstep]
  cases hr : pySplitGo sep rest 0 with
  | nil => exact absurd hr (pySplit_ne_nil sep rest)
  | cons seg segs =>
    have : pySplitList sep rest = seg :: segs := hr
    rw [this]
    rfl

theorem pySplit_headI_isPrefix_aux (sep : PyStr) : ∀ (n : Nat) (s : PyStr),
    s.length ≤ n → (pySplitList sep s).headI <+: s := by
  intro n
  induction n with
  | zero =>
    intro s hs
    have : s = [] := List.eq_nil_of_length_eq_zero (Nat.le_zero.mp hs)
    subst this
    exact ⟨[], rfl⟩
  | succ n ih =>
    intro s hs
    cases s with
    | nil => exact ⟨[], rfl⟩
    | cons c rest =>
      by_cases h : sep ≠ [] ∧ sep.isPrefixOf (c :: rest)
      · rw [pySplit_cons_pos sep c rest h.1 h.2]
        exact List.nil_prefix
      · rw [pySplit_cons_neg sep c rest h]
        have hrest : (pySplitList sep rest).headI <+: rest :=
          ih rest (by simp only [List.length_cons] at hs; omega)
        exact cons_isPrefix_cons rfl hrest

theorem pySplit_headI_isPrefix (sep : PyStr) (s : PyStr) :
    (pySplitList sep s).headI <+: s :=
  pySplit_headI_isPrefix_aux sep s.length s le_rfl

theorem pySplit_headI_not_isInfix_aux (sep : PyStr) (hsep : sep ≠ []) :
    ∀ (n : Nat) (s : PyStr), s.length ≤ n →
      ¬ sep <:+: (pySplitList sep s).headI := by
  intro n
  induction n with
  | zero =>
    intro s hs
    have : s = [] := List.eq_nil_of_length_eq_zero (Nat.le_zero.mp hs)
    subst this
    exact not_isInfix_nil hsep
  | succ n ih =>
    intro s hs
    cases s with
    | nil => exact not_isInfix_nil hsep
    | cons c rest =>
      by_cases h : sep ≠ [] ∧ sep.isPrefixOf (c :: rest)
      · rw [pySplit_cons_pos sep c rest h.1 h.2]
        exact not_isInfix_nil hsep
      · rw [pySplit_cons_neg sep c rest h]
        intro hinf
        rcases isInfix_cons_iff.mp hinf with hp | hi
        · have hh : (pySplitList sep rest).headI <+: rest :=
            pySplit_headI_isPrefix sep rest
          have : sep <+: c :: rest := hp.trans (cons_isPrefix_cons rfl hh)
          exact h ⟨hsep, (isPrefixOf_iff sep (c :: rest)).mpr this⟩
        · exact ih rest (by simp only [List.length_cons] at hs; omega) hi

theorem pySplit_headI_not_isInfix (sep : PyStr) (hsep : sep ≠ []) (s : PyStr) :
    ¬ sep <:+: (pySplitList sep s).headI :=
  pySplit_headI_not_isInfix_aux sep hsep s.length s le_rfl

theorem pySplit_single_aux (sep : PyStr) (hsep : sep ≠ []) :
    ∀ (n : Nat) (s : PyStr), s.length ≤ n → ¬ sep <:+: s →
      pySplitList sep s = [s] := by
  intro n
  induction n with
  | zero =>
    intro s hs _
    have : s = [] := List.eq_nil_of_length_eq_zero (Nat.le_zero.mp hs)
    subst this
    rfl
  | succ n ih =>
    intro s hs hni
    cases s with
    | nil => rfl
    | cons c rest =>
      have h : ¬ (sep ≠ [] ∧ sep.isPrefixOf (c :: rest)) := by
        rintro ⟨-, hpre⟩
        exact hni ((isPrefixOf_iff sep (c :: rest)).mp hpre).isInfix
      rw [pySplit_cons_neg sep c rest h]
      have hrest : pySplitList sep rest = [rest] :=
        ih rest (by simp only [List.length_cons] at hs; omega)
          (fun hi => hni (isInfix_cons_of c hi))
      rw [hrest]
      rfl

theorem pySplit_single (sep : PyStr) (hsep : sep ≠ []) (s : PyStr)
    (hni : ¬ sep <:+: s) : pySplitList sep s = [s] :=
  pySplit_single_aux sep hsep s.length s le_rfl hni

theorem pySplit_length_one_aux (sep : PyStr) (hsep : sep ≠ []) :
    ∀ (n : Nat) (s : PyStr), s.length ≤ n →
      ((pySplitList sep s).length = 1 ↔ ¬ sep <:+: s) := by
  intro n
  induction n with
  | zero =>
    intro s hs
    have : s = [] := List.eq_nil_of_length_eq_zero (Nat.le_zero.mp hs)
    subst this
    simp [not_isInfix_nil hsep]
  | succ n ih =>
    intro s hs
    cases s with
    | nil => simp [not_isInfix_nil hsep]
    | cons c rest =>
      by_cases h : sep ≠ [] ∧ sep.isPrefixOf (c :: rest)
      · rw [pySplit_cons_pos sep c rest h.1 h.2]
        have hlen : 1 ≤ (pySplitList sep ((c :: rest).drop sep.length)).length :=
          List.length_pos.mpr (pySplit_ne_nil sep _)
        have hinf : sep <:+: c :: rest :=
          ((isPrefixOf_iff sep (c :: rest)).mp h.2).isInfix
        simp only [List.length_cons]
        constructor
        · intro h1; omega
        · intro hni; exact absurd hinf hni
      · rw [pySplit_cons_neg sep c rest h]
        have hne := pySplit_ne_nil sep rest
        have hrest := ih rest (by simp only [List.length_cons] at hs; omega)
        cases hr : pySplitList sep rest with
        | nil => exact absurd hr hne
        | cons seg segs =>
          rw [hr] at hrest
          simp only [List.headI, List.tail, List.length_cons] at hrest ⊢
          have hcons : (sep <:+: c :: rest) ↔ sep <:+: rest := by
            rw [isInfix_cons_iff]
            constructor
            · rintro (hp | hi)
              · exact absurd ⟨hsep, (isPrefixOf_iff sep (c :: rest)).mpr hp⟩ h
              · exact hi
            · exact Or.inr
          rw [hcons]
          exact hrest

theorem pySplit_length_one_iff (sep : PyStr) (hsep : sep ≠ []) (s : PyStr) :
    (pySplitList sep s).length = 1 ↔ ¬ sep <:+: s :=
  pySplit_length_one_aux sep hsep s.length s le_rfl

/-! ## `strip` lemmas -/

theorem dropWhile_self (p : Char → Bool) : ∀ l : PyStr,
    (l.dropWhile p).dropWhile p = l.dropWhile p := by
  intro l
  induction l with
  | nil => rfl
  | cons c t ih =>
    by_cases h : p c
    · simp [List.dropWhile_cons, h, ih]
    · simp [List.dropWhile_cons, h]

theorem dropWhile_append_last (p : Char → Bool) (c : Char) (hc : p c = false) :
    ∀ l : PyStr, (l ++ [c]).dropWhile p = l.dropWhile p ++ [c] := by
  intro l
  induction l with
  | nil => simp [List.dropWhile_cons, hc]
  | cons a t ih =>
    by_cases h : p a <;> simp [List.dropWhile_cons, h, ih]

theorem dropWhile_reverse_dropWhile (p : Char → Bool) :
    ∀ l : PyStr, l.dropWhile p = l →
      ((l.reverse.dropWhile p).reverse).dropWhile p
        = (l.reverse.dropWhile p).reverse := by
  intro l hl
  cases l with
  | nil => rfl
  | cons c t =>
    have hc : p c = false := by
      by_contra hpc
      rw [List.dropWhile_cons, if_pos (by simpa using hpc)] at hl
      have hle : (t.dropWhile p).length ≤ t.length :=
        (List.dropWhile_suffix p).length_le
      rw [hl] at hle
      simp at hle
    rw [List.reverse_cons, dropWhile_append_last p c hc, List.reverse_append]
    simp only [List.reverse_cons, List.reverse_nil, List.nil_append,
      List.singleton_append]
    rw [List.dropWhile_cons, if_neg (by simp [hc])]

theorem strip_idem (s : PyStr) : strip (strip s) = strip s := by
  show ((((((s.dropWhile pyWhitespace).reverse.dropWhile
      pyWhitespace).reverse).dropWhile pyWhitespace).reverse).dropWhile
      pyWhitespace).reverse = _
  rw [dropWhile_reverse_dropWhile pyWhitespace _ (dropWhile_self pyWhitespace s)]
  rw [List.reverse_reverse, dropWhile_self]
  rfl

theorem strip_isInfix (s : PyStr) : strip s <:+: s := by
  have h1 : s.dropWhile pyWhitespace <:+ s := List.dropWhile_suffix _
  obtain ⟨u, hu⟩ : (s.dropWhile pyWhitespace).reverse.dropWhile pyWhitespace
      <:+ (s.dropWhile pyWhitespace).reverse := List.dropWhile_suffix _
  have h2 : strip s <+: s.dropWhile pyWhitespace := by
    refine ⟨u.reverse, ?_⟩
    have := congrArg List.reverse hu
    rw [List.reverse_append, List.reverse_reverse] at this
    exact this
  exact h2.isInfix.trans h1.isInfix

theorem not_isInfix_strip {sep s : PyStr} (h : ¬ sep <:+: s) :
    ¬ sep <:+: strip s :=
  fun hi => h (hi.trans (strip_isInfix s))

/-! ## Candidate-level lemmas -/

theorem candidateResult_not_isInfix (inp sep s : PyStr) (hsep : sep ≠ []) :
    ¬ sep <:+: candidateResult inp sep s := by
  intro h
  exact pySplit_headI_not_isInfix sep hsep (strip (removeAll inp s))
    (h.trans (strip_isInfix _))

theorem candidateResult_strip (inp sep s : PyStr) :
    strip (candidateResult inp sep s) = candidateResult inp sep s :=
  strip_idem _

theorem candidateResult_fixed (inp sep r : PyStr) (hsep : sep ≠ [])
    (hstrip : strip r = r) (hsepr : ¬ sep <:+: r) (hinp : ¬ inp <:+: r) :
    candidateResult inp sep r = r := by
  unfold candidateResult
  rw [removeAll_of_not_isInfix inp r hinp, hstrip,
    pySplit_single sep hsep r hsepr]
  exact hstrip

/-! ## Loop-level lemmas for the trimmer -/

theorem processCandidate_eq (inp sep s : PyStr) (hsep : sep ≠ []) :
    processCandidate inp sep s
      = .ok (candidateResult inp sep s, candidateWarn inp sep s) := by
  simp [processCandidate, hsep, candidateResult, candidateWarn]

theorem processGroup_eq (inp sep : PyStr) (hsep : sep ≠ []) :
    ∀ g : List PyStr, processGroup inp sep g
      = .ok (g.map (candidateResult inp sep),
             (g.map (candidateWarn inp sep)).sum) := by
  intro g
  induction g with
  | nil => rfl
  | cons s rest ih =>
    simp [processGroup, processCandidate_eq inp sep s hsep, ih]

theorem processGroup_ok (inp sep : PyStr) :
    ∀ (g rs : List PyStr) (w : Nat), processGroup inp sep g = .ok (rs, w) →
      rs = g.map (candidateResult inp sep) := by
  intro g rs w h
  by_cases hsep : sep = []
  · cases g with
    | nil =>
      simp only [processGroup] at h
      obtain ⟨h1, -⟩ := Prod.mk.inj (Except.ok.inj h)
      simp [h1.symm]
    | cons s rest => simp [processGroup, processCandidate, hsep] at h
  · rw [processGroup_eq inp sep hsep g] at h
    exact (Prod.mk.inj (Except.ok.inj h)).1.symm

theorem postprocessGo_eq (sep : PyStr) (hsep : sep ≠ []) :
    ∀ (inputs : List PyStr) (outputs : List (List PyStr)),
      inputs.length = outputs.length →
      postprocessGo sep inputs outputs
        = .ok (List.zipWith (fun inp g => g.map (candidateResult inp sep))
                 inputs outputs,
               (List.zipWith (fun inp g => (g.map (candidateWarn inp sep)).sum)
                 inputs outputs).sum) := by
  intro inputs
  induction inputs with
  | nil =>
    intro outputs h
    cases outputs with
    | nil => rfl
    | cons g gs => simp at h
  | cons inp inps ih =>
    intro outputs h
    cases outputs with
    | nil => simp at h
    | cons g gs =>
      simp only [List.length_cons] at h
      simp [postprocessGo, processGroup_eq inp sep hsep g,
        ih gs (by omega)]

theorem postprocessGo_ok (sep : PyStr) :
    ∀ (outputs : List (List PyStr)) (inputs : List PyStr)
      (res : List (List PyStr)) (w : Nat),
      postprocessGo sep inputs outputs = .ok (res, w) →
      res.length = outputs.length ∧
      List.Forall₂ (fun g rg => (rg : List PyStr).length = g.length)
        outputs res ∧
      (∀ rg ∈ res, ∀ r ∈ rg, ∃ inp s, r = candidateResult inp sep s) := by
  intro outputs
  induction outputs with
  | nil =>
    intro inputs res w h
    cases inputs with
    | nil =>
      simp only [postprocessGo] at h
      obtain ⟨h1, -⟩ := Prod.mk.inj (Except.ok.inj h)
      subst h1
      exact ⟨rfl, List.Forall₂.nil, by simp⟩
    | cons inp inps =>
      simp only [postprocessGo] at h
      obtain ⟨h1, -⟩ := Prod.mk.inj (Except.ok.inj h)
      subst h1
      exact ⟨rfl, List.Forall₂.nil, by simp⟩
  | cons g gs ih =>
    intro inputs res w h
    cases inputs with
    | nil =>
      simp only [postprocessGo] at h
      by_cases hg : g = []
      · rw [if_pos hg] at h
        cases hrec : postprocessGo sep [] gs with
        | error e => rw [hrec] at h; cases h
        | ok p =>
          rw [hrec] at h
          obtain ⟨h1, -⟩ := Prod.mk.inj (Except.ok.inj h)
          subst h1
          obtain ⟨ih1, ih2, ih3⟩ := ih [] p.1 p.2 (by rw [hrec])
          refine ⟨by simp [ih1], ?_, ?_⟩
          · exact List.Forall₂.cons (by simp [hg]) ih2
          · intro rg hrg r hr
            rcases List.mem_cons.mp hrg with rfl | hmem
            · cases hr
            · exact ih3 rg hmem r hr
      · rw [if_neg hg] at h
        cases h
    | cons inp inps =>
      simp only [postprocessGo] at h
      cases hpg : processGroup inp sep g with
      | error e => rw [hpg] at h; cases h
      | ok p =>
        rw [hpg] at h
        cases hrec : postprocessGo sep inps gs with
        | error e => rw [hrec] at h; cases h
        | ok q =>
          rw [hrec] at h
          obtain ⟨h1, -⟩ := Prod.mk.inj (Except.ok.inj h)
          subst h1
          obtain ⟨ih1, ih2, ih3⟩ := ih inps q.1 q.2 (by rw [hrec])
          have hmap : p.1 = g.map (candidateResult inp sep) :=
            processGroup_ok inp sep g p.1 p.2 (by rw [hpg])
          refine ⟨by simp [ih1], ?_, ?_⟩
          · exact List.Forall₂.cons (by simp [hmap]) ih2
          · intro rg hrg r hr
            rcases List.mem_cons.mp hrg with rfl | hmem
            · rw [hmap] at hr
              obtain ⟨s, -, rfl⟩ := List.mem_map.mp hr
              exact ⟨inp, s, rfl⟩
            · exact ih3 rg hmem r hr

theorem zipWith_candidateResult_eq (sep : PyStr) (hsep : sep ≠ []) :
    ∀ (inputs : List PyStr) (res : List (List PyStr)),
      List.Forall₂ (fun inp g => ∀ r ∈ g, ¬ inp <:+: r) inputs res →
      (∀ g ∈ res, ∀ r ∈ g, strip r = r ∧ ¬ sep <:+: r) →
      List.zipWith (fun inp g => g.map (candidateResult inp sep)) inputs res
        = res := by
  intro inputs res hf
  induction hf with
  | nil => intro _; rfl
  | @cons inp b inps res2 hpair htail ih =>
    intro hres
    simp only [List.zipWith_cons_cons]
    rw [ih (fun g hg => hres g (List.mem_cons_of_mem b hg))]
    have hmap : ∀ r ∈ b, candidateResult inp sep r = r := by
      intro r hr
      obtain ⟨h1, h2⟩ := hres b (List.mem_cons_self b res2) r hr
      exact candidateResult_fixed inp sep r hsep h1 h2 (hpair r hr)
    rw [List.map_congr_left hmap, List.map_id']

/-! ## Chunk lemmas for the reshaper -/

theorem chunkList_exact (k : Nat) (hk : k ≠ 0) :
    ∀ (b : Nat) (l : List String), l.length = b * k →
      (chunkList k l).length = b ∧
      (∀ g ∈ chunkList k l, g.length = k) ∧
      (chunkList k l).flatten = l ∧
      (∀ i, i < b → (chunkList k l).getD i [] = (l.drop (i * k)).take k) := by
  intro b
  induction b with
  | zero =>
    intro l hl
    have : l = [] := List.eq_nil_of_length_eq_zero (by simpa using hl)
    subst this
    exact ⟨rfl, by simp, rfl, by simp⟩
  | succ b ih =>
    intro l hl
    have hkpos : 0 < k := Nat.pos_of_ne_zero hk
    have hlen : k ≤ l.length := by
      rw [hl, Nat.succ_mul]; omega
    cases l with
    | nil => simp at hlen; omega
    | cons c rest =>
      rw [chunkList_cons k hk c rest]
      have hdrop : ((c :: rest).drop k).length = b * k := by
        rw [List.length_drop, hl, Nat.succ_mul]; omega
      obtain ⟨ih1, ih2, ih3, ih4⟩ := ih ((c :: rest).drop k) hdrop
      refine ⟨by simp [ih1], ?_, ?_, ?_⟩
      · intro g hg
        rcases List.mem_cons.mp hg with rfl | hmem
        · rw [List.length_take]; omega
        · exact ih2 g hmem
      · rw [List.flatten_cons, ih3, List.take_append_drop]
      · intro i hi
        cases i with
        | zero => simp
        | succ i =>
          simp only [List.getD_cons_succ]
          rw [ih4 i (by omega), List.drop_drop, Nat.succ_mul]
          rw [Nat.add_comm (i * k) k]

theorem chunkList_length_gt (k : Nat) (hk : k ≠ 0) :
    ∀ (b : Nat) (l : List String), b * k < l.length →
      b < (chunkList k l).length := by
  intro b
  induction b with
  | zero =>
    intro l hl
    cases l with
    | nil => simp at hl
    | cons c rest => rw [chunkList_cons k hk]; simp
  | succ b ih =>
    intro l hl
    cases l with
    | nil => simp at hl
    | cons c rest =>
      rw [chunkList_cons k hk]
      have hstep : b * k < ((c :: rest).drop k).length := by
        rw [List.length_drop]
        rw [Nat.succ_mul] at hl
        omega
      simpa using ih _ hstep

theorem reshape_eq_ok (outputs : List String) (b : Nat) (hb : b ≠ 0)
    (hk : outputs.length / b ≠ 0)
    (h1 : (chunkList (outputs.length / b) outputs).length = b)
    (h2 : (chunkList (outputs.length / b) outputs).headI.length
        = outputs.length / b) :
    reshape_model_outputs outputs b
      = .ok (chunkList (outputs.length / b) outputs) := by
  simp [reshape_model_outputs, hb, hk, h1, h2]

/-! ## Claim theorems: the reshaper -/

/-- C1 (confirmed): for every `batch_size > 0`, every `k ≥ 1` and every
flat list of strings of length `batch_size * k`,
`reshape_model_outputs flat batch_size` returns exactly `batch_size`
groups of exactly `k` elements each, concatenating the groups in order
reproduces the flat list, and chunk `i` is `flat[i*k : (i+1)*k]`. -/
theorem reshape_exact_multiple (flat : List String) (b k : Nat)
    (hb : 0 < b) (hk : 1 ≤ k) (hlen : flat.length = b * k) :
    ∃ gs, reshape_model_outputs flat b = .ok gs ∧
      gs.length = b ∧ (∀ g ∈ gs, g.length = k) ∧ gs.flatten = flat ∧
      (∀ i, i < b → gs.getD i [] = (flat.drop (i * k)).take k) := by
  have hkdiv : flat.length / b = k := by
    rw [hlen, Nat.mul_div_cancel_left _ hb]
  obtain ⟨h1, h2, h3, h4⟩ := chunkList_exact k (by omega) b flat hlen
  have hne : chunkList k flat ≠ [] := by
    intro hnil
    rw [hnil] at h1
    simp at h1
    omega
  have hheadI : (chunkList k flat).headI.length = k := by
    cases hc : chunkList k flat with
    | nil => exact absurd hc hne
    | cons g gs =>
      have hmem : g ∈ chunkList k flat := by
        rw [hc]; exact List.mem_cons_self g gs
      simpa [hc] using h2 g hmem
  refine ⟨chunkList k flat, ?_, h1, h2, h3, h4⟩
  have hrun := reshape_eq_ok flat b (by omega) (by rw [hkdiv]; omega)
    (by rw [hkdiv]; exact h1) (by rw [hkdiv]; exact hheadI)
  rw [hkdiv] at hrun
  exact hrun

/-- Witness for C1 at the scenario given in the spec:
`reshape(["a","b","c","d"], batch_size=2) = [["a","b"],["c","d"]]`. -/
theorem reshape_exact_multiple_witness :
    ∃ gs, reshape_model_outputs ["a", "b", "c", "d"] 2 = .ok gs ∧
      gs.length = 2 ∧ (∀ g ∈ gs, g.length = 2) ∧
      gs.flatten = ["a", "b", "c", "d"] ∧
      (∀ i, i < 2 →
        gs.getD i []
          = ((["a", "b", "c", "d"] : List String).drop (i * 2)).take 2) :=
  reshape_exact_multiple ["a", "b", "c", "d"] 2 2 (by decide) (by decide)
    (by decide)

/-- C4 counterexample: a flat list whose length (1) is not a multiple of
the batch size (2) on which the code raises `ValueError` (from the zero
step of `range`), not the claimed ShapeError. -/
theorem reshape_shape_error_counterexample :
    (["a"] : List String).length % 2 ≠ 0 ∧
    reshape_model_outputs ["a"] 2 = .error .valueError ∧
    reshape_model_outputs ["a"] 2 ≠ .error .shapeError := by
  refine ⟨by decide, rfl, fun h => ?_⟩
  have h2 : PyError.valueError = PyError.shapeError :=
    Except.error.inj ((rfl : reshape_model_outputs ["a"] 2
      = .error .valueError).symm.trans h)
  cases h2

/-- C4 (amended): when additionally `len(flat) ≥ batch_size` (so the
computed chunk size is at least 1), a length that is not a multiple of
the batch size makes `reshape_model_outputs` fail with ShapeError (the
first `assert`). -/
theorem reshape_shape_error_of_not_dvd (flat : List String) (b : Nat)
    (hb : 0 < b) (hble : b ≤ flat.length) (hmod : flat.length % b ≠ 0) :
    reshape_model_outputs flat b = .error .shapeError := by
  have hk : flat.length / b ≠ 0 := by
    have := Nat.div_pos hble hb
    omega
  have hlt : b * (flat.length / b) < flat.length := by
    have h1 := Nat.div_add_mod flat.length b
    omega
  have hgt : b < (chunkList (flat.length / b) flat).length :=
    chunkList_length_gt (flat.length / b) hk b flat hlt
  simp only [reshape_model_outputs]
  rw [if_neg (by omega), if_neg hk, if_neg (by omega)]

/-- Witness for the amended C4 at the scenario given in the spec:
`reshape(["a","b","c"], batch_size=2)`, which does raise ShapeError. -/
theorem reshape_shape_error_witness :
    0 < 2 ∧ 2 ≤ (["a", "b", "c"] : List String).length ∧
    (["a", "b", "c"] : List String).length % 2 ≠ 0 ∧
    reshape_model_outputs ["a", "b", "c"] 2 = .error .shapeError :=
  ⟨by decide, by decide, by decide,
    reshape_shape_error_of_not_dvd ["a", "b", "c"] 2 (by decide) (by decide)
      (by decide)⟩

/-- C9 (confirmed): for every non-empty flat list and every batch size
strictly greater than its length, the computed `return_seqs_per_input`
is 0 and `reshape_model_outputs` raises the uncontrolled `ValueError`
(from the zero step in `range`), not the documented ShapeError, before
either assertion is evaluated. -/
theorem reshape_small_batch_value_error (flat : List String) (b : Nat)
    (hne : flat ≠ []) (hgt : flat.length < b) :
    flat.length / b = 0 ∧
    reshape_model_outputs flat b = .error .valueError := by
  have hk : flat.length / b = 0 := Nat.div_eq_of_lt hgt
  have hb : b ≠ 0 := by
    have : 0 < flat.length := List.length_pos.mpr hne
    omega
  refine ⟨hk, ?_⟩
  simp [reshape_model_outputs, hb, hk]

/-- Witness for C9 at `flat = ["a"]`, `batch_size = 2`. -/
theorem reshape_small_batch_value_error_witness :
    (["a"] : List String).length / 2 = 0 ∧
    reshape_model_outputs ["a"] 2 = .error .valueError :=
  reshape_small_batch_value_error ["a"] 2 (by decide) (by decide)

/-! ## Claim theorems: the trimmer -/

/-- C2 counterexample: on the candidate "ab x ab" with prompt "ab", the
code (Python `str.replace`) removes BOTH occurrences and yields "x",
whereas removing only the first occurrence as the claim states would
yield "x ab". -/
theorem postprocess_first_occurrence_counterexample :
    postprocess_model_outputs [pys "ab"] [[pys "ab x ab"]] (pys "***") none
      = .ok ([[pys "x"]], 1) ∧
    strip ((pySplitList (pys "***")
        (strip (removeFirst (pys "ab") (pys "ab x ab")))).headI)
      = pys "x ab" ∧
    pys "x" ≠ pys "x ab" :=
  ⟨rfl, rfl, by decide⟩

/-- C2 (amended): with a non-empty separator and equal lengths,
`postprocess_model_outputs` processes each candidate `s` of group `i` by
removing EVERY literal non-overlapping occurrence of `inputs[i]` from `s`
(Python `str.replace` semantics, not just the first), trimming
whitespace, splitting on the separator, and keeping the trimmed first
segment. -/
theorem postprocess_removes_all_occurrences (inputs : List PyStr)
    (outputs : List (List PyStr)) (sep : PyStr) (ref : Option PyStr)
    (hsep : sep ≠ []) (hlen : inputs.length = outputs.length) :
    ∃ w, postprocess_model_outputs inputs outputs sep ref
      = .ok (List.zipWith (fun inp g => g.map (fun s =>
          strip ((pySplitList sep (strip (removeAll inp s))).headI)))
          inputs outputs, w) :=
  ⟨_, postprocessGo_eq sep hsep inputs outputs hlen⟩

/-- Witness for the amended C2 at the input of the counterexample. -/
theorem postprocess_removes_all_occurrences_witness :
    ∃ w, postprocess_model_outputs [pys "ab"] [[pys "ab x ab"]]
        (pys "***") none
      = .ok (List.zipWith (fun inp g => g.map (fun s =>
          strip ((pySplitList (pys "***")
            (strip (removeAll inp s))).headI)))
          [pys "ab"] [[pys "ab x ab"]], w) :=
  postprocess_removes_all_occurrences [pys "ab"] [[pys "ab x ab"]]
    (pys "***") none (by decide) rfl

/-- C3 counterexample: inputs `["ab"]`, outputs `[["aabb"]]`, separator
"X".  The input is already trimmed and the separator occurs nowhere, yet
the first pass yields `[["ab"]]` (deleting "ab" from "aabb" creates a
fresh occurrence of the prompt) and the second pass deletes it again,
yielding `[[""]]`: running postprocess twice differs from running it
once. -/
theorem postprocess_idempotent_counterexample :
    strip (pys "aabb") = pys "aabb" ∧
    ¬ (pys "X") <:+: (pys "aabb") ∧
    postprocess_model_outputs [pys "ab"] [[pys "aabb"]] (pys "X") none
      = .ok ([[pys "ab"]], 1) ∧
    postprocess_model_outputs [pys "ab"] [[pys "ab"]] (pys "X") none
      = .ok ([[pys ""]], 1) ∧
    ([[pys "ab"]] : List (List PyStr)) ≠ [[pys ""]] :=
  ⟨rfl, by decide, rfl, rfl, by decide⟩

/-- C3 (amended): postprocess is idempotent on its own output provided
additionally that the prompt `inputs[i]` no longer occurs in any
once-processed string of group `i` (the once-processed strings are
automatically trimmed and separator-free, so those conditions of the
claim need not be restated). -/
theorem postprocess_idempotent_on_prompt_free (inputs : List PyStr)
    (outputs res : List (List PyStr)) (sep : PyStr) (ref : Option PyStr)
    (w : Nat) (hsep : sep ≠ [])
    (h : postprocess_model_outputs inputs outputs sep ref = .ok (res, w))
    (hprompt : List.Forall₂ (fun inp g => ∀ r ∈ g, ¬ inp <:+: r)
      inputs res) :
    ∃ w2, postprocess_model_outputs inputs res sep ref = .ok (res, w2) := by
  obtain ⟨-, -, h3⟩ := postprocessGo_ok sep outputs inputs res w h
  have hres : ∀ g ∈ res, ∀ r ∈ g, strip r = r ∧ ¬ sep <:+: r := by
    intro g hg r hr
    obtain ⟨inp2, s2, rfl⟩ := h3 g hg r hr
    exact ⟨candidateResult_strip inp2 sep s2,
      candidateResult_not_isInfix inp2 sep s2 hsep⟩
  have hlen : inputs.length = res.length := hprompt.length_eq
  refine ⟨(List.zipWith (fun inp g => (g.map (candidateWarn inp sep)).sum)
    inputs res).sum, ?_⟩
  show postprocessGo sep inputs res = _
  rw [postprocessGo_eq sep hsep inputs res hlen,
    zipWith_candidateResult_eq sep hsep inputs res hprompt hres]

/-- Witness for the amended C3: the prompt "p" does not occur in the
once-processed output `[["hello"]]`, and a second pass reproduces it. -/
theorem postprocess_idempotent_witness :
    ∃ w2, postprocess_model_outputs [pys "p"] [[pys "hello"]]
        (pys "X") none
      = .ok ([[pys "hello"]], w2) :=
  postprocess_idempotent_on_prompt_free [pys "p"] [[pys "hello"]]
    [[pys "hello"]] (pys "X") none 1 (by decide) rfl
    (List.Forall₂.cons (by decide) List.Forall₂.nil)

/-- C5 counterexample: with an empty separator (and equal lengths) the
code raises `ValueError` from `str.split`, so no shape-preserving result
is returned. -/
theorem postprocess_empty_separator_counterexample :
    ([pys "a"] : List PyStr).length
      = ([[pys "b"]] : List (List PyStr)).length ∧
    postprocess_model_outputs [pys "a"] [[pys "b"]] (pys "") none
      = .error .valueError :=
  ⟨rfl, rfl⟩

/-- C5 (amended): for every NON-EMPTY separator and equal lengths,
`postprocess_model_outputs` succeeds and its result has exactly the
shape of `outputs`: the same number of groups and the same number of
strings in each group. -/
theorem postprocess_preserves_shape (inputs : List PyStr)
    (outputs : List (List PyStr)) (sep : PyStr) (ref : Option PyStr)
    (hsep : sep ≠ []) (hlen : inputs.length = outputs.length) :
    ∃ res w, postprocess_model_outputs inputs outputs sep ref
        = .ok (res, w) ∧
      res.length = outputs.length ∧
      List.Forall₂ (fun g rg => (rg : List PyStr).length = g.length)
        outputs res := by
  have heq := postprocessGo_eq sep hsep inputs outputs hlen
  obtain ⟨h1, h2, -⟩ := postprocessGo_ok sep outputs inputs _ _ heq
  exact ⟨_, _, heq, h1, h2⟩

/-- Witness for the amended C5 at a two-group input. -/
theorem postprocess_preserves_shape_witness :
    ∃ res w, postprocess_model_outputs [pys "a", pys "b"]
        [[pys "u", pys "v"], [pys "w"]] (pys "X") none = .ok (res, w) ∧
      res.length = ([[pys "u", pys "v"], [pys "w"]]
        : List (List PyStr)).length ∧
      List.Forall₂ (fun g rg => (rg : List PyStr).length = g.length)
        [[pys "u", pys "v"], [pys "w"]] res :=
  postprocess_preserves_shape [pys "a", pys "b"]
    [[pys "u", pys "v"], [pys "w"]] (pys "X") none (by decide) rfl

/-- C6 counterexample: prompt "xx", candidate "axxb", separator "ab".
The separator does not occur in the candidate, yet no warning is emitted
and the returned string is "" (deleting the prompt creates a separator
occurrence), not the whole trimmed prompt-stripped candidate "ab". -/
theorem postprocess_missing_separator_counterexample :
    ¬ (pys "ab") <:+: (pys "axxb") ∧
    postprocess_model_outputs [pys "xx"] [[pys "axxb"]] (pys "ab") none
      = .ok ([[pys ""]], 0) ∧
    strip (removeAll (pys "xx") (pys "axxb")) = pys "ab" ∧
    pys "" ≠ pys "ab" :=
  ⟨by decide, rfl, rfl, by decide⟩

/-- C6 (amended): for every candidate whose split produces exactly one
segment — equivalently, the separator does not occur in the
prompt-stripped trimmed candidate — postprocess emits one warning log
entry and returns that whole prompt-stripped trimmed candidate, rather
than failing. -/
theorem postprocess_missing_separator_warns (inp s sep : PyStr)
    (ref : Option PyStr) (hsep : sep ≠ [])
    (hone : (pySplitList sep (strip (removeAll inp s))).length = 1) :
    postprocess_model_outputs [inp] [[s]] sep ref
      = .ok ([[strip (removeAll inp s)]], 1) := by
  have hni : ¬ sep <:+: strip (removeAll inp s) :=
    (pySplit_length_one_iff sep hsep _).mp hone
  have hsingle := pySplit_single sep hsep _ hni
  have hcr : candidateResult inp sep s = strip (removeAll inp s) := by
    rw [candidateResult, hsingle]
    exact strip_idem (removeAll inp s)
  have hcw : candidateWarn inp sep s = 1 := by
    rw [candidateWarn, if_pos hone]
  show postprocessGo sep [inp] [[s]] = _
  rw [postprocessGo_eq sep hsep [inp] [[s]] rfl]
  simp [hcr, hcw]

/-- Witness for the amended C6: separator "X" absent from "hello". -/
theorem postprocess_missing_separator_warns_witness :
    postprocess_model_outputs [pys "p"] [[pys "hello"]] (pys "X") none
      = .ok ([[strip (removeAll (pys "p") (pys "hello"))]], 1) :=
  postprocess_missing_separator_warns (pys "p") (pys "hello") (pys "X")
    none (by decide) (by decide)

/-- C7 (confirmed): the scenario given in the spec.  Postprocessing the candidate
"Tell me a story. Once upon a time.\n\nThe end" with prompt
"Tell me a story." and separator "\n\n" yields "Once upon a time."
(and no warning is emitted, since the split has two segments). -/
theorem postprocess_story_scenario :
    postprocess_model_outputs [pys "Tell me a story."]
      [[pys "Tell me a story. Once upon a time.\n\nThe end"]]
      (pys "\n\n") none
      = .ok ([[pys "Once upon a time."]], 0) := rfl

/-- C10 (confirmed): for every non-empty separator, every string in a
grouped output successfully returned by `postprocess_model_outputs`
contains no occurrence of the separator. -/
theorem postprocess_no_separator_in_result (inputs : List PyStr)
    (outputs res : List (List PyStr)) (sep : PyStr) (ref : Option PyStr)
    (w : Nat) (hsep : sep ≠ [])
    (h : postprocess_model_outputs inputs outputs sep ref
      = .ok (res, w)) :
    ∀ g ∈ res, ∀ r ∈ g, ¬ sep <:+: r := by
  obtain ⟨-, -, h3⟩ := postprocessGo_ok sep outputs inputs res w h
  intro g hg r hr
  obtain ⟨inp, s, rfl⟩ := h3 g hg r hr
  exact candidateResult_not_isInfix inp sep s hsep

/-- Witness for C10 at a concrete run: on inputs `["a"]`, outputs
`[["b"]]` and separator "X", the one returned string "b" does not
contain the separator. -/
theorem postprocess_no_separator_in_result_witness :
    ¬ (pys "X") <:+: (pys "b") :=
  postprocess_no_separator_in_result [pys "a"] [[pys "b"]] [[pys "b"]]
    (pys "X") none 1 (by decide) rfl [pys "b"] (by decide) (pys "b")
    (by decide)

/-! ## Claim theorem: the command-line defaults -/

/-- C8 (confirmed): the dataclass defaults of `InferenceArguments` are
exactly the values the spec states: `max_new_tokens=100`, `num_beams=4`,
`do_sample=false`, `temperature=1.0`, `top_k=0`, `top_p=0.0`,
`num_return_sequences=1`, `example_separator="\n\n"`. -/
theorem inference_argument_defaults (m : String) :
    (inferenceArgumentsDefault m).max_new_tokens = 100 ∧
    (inferenceArgumentsDefault m).num_beams = 4 ∧
    (inferenceArgumentsDefault m).do_sample = false ∧
    (inferenceArgumentsDefault m).temperature = 1 ∧
    (inferenceArgumentsDefault m).top_k = 0 ∧
    (inferenceArgumentsDefault m).top_p = 0 ∧
    (inferenceArgumentsDefault m).num_return_sequences = 1 ∧
    (inferenceArgumentsDefault m).example_separator = "\n\n" :=
  ⟨rfl, rfl, rfl, rfl, rfl, rfl, rfl, rfl⟩

end LLMInf
